import Mathlib

/-!
Verification of the discovery-and-scan engine of pdive2 (`main.go`).

The Go source is shallowly embedded: every pure computation of the engine
(target expansion, duplicate removal, the masscan output parser, the
well-known-service lookup) is translated into an executable Lean function,
and every store-mutating phase (HostDiscovery, PassiveDiscovery, PortScan,
the MasscanScan merge) is translated into an explicit state-passing
function over the `ScanResults` record.  Network and process effects are
modelled by oracle parameters: `ping : String → Bool` abstracts
`pingHost`, `conn : String → Int → Bool` abstracts a TCP dial
(`net.DialTimeout` succeeding), and an `httpGet` oracle abstracts
`http.Client.Get`.  Concurrent worker pools are modelled by an explicit
schedule assigning each queued item to the worker that takes it off the
shared channel; facts stated below are schedule independent exactly when
the Go code is.
-/

namespace PDive2

/-- Record `PortInfo` from `main.go`: port number (Go `int`), state string and
service label. -/
structure PortInfo where
  Port : Int
  State : String
  Service : String
deriving DecidableEq

/-- Record `HostInfo` from `main.go`: host identifier, status and the port list. -/
structure HostInfo where
  Host : String
  Status : String
  Ports : List PortInfo
deriving DecidableEq

/-- The mutable payload of `ScanResults` from `main.go` (scan metadata is
immutable after construction and is omitted; the mutex guards, it does not
carry data). -/
structure ScanResults where
  Hosts : List HostInfo
  UnresponsiveHosts : Int
deriving DecidableEq

/-- Auxiliary recursion for `removeDuplicates`: `seen` plays the role of
the `keys` map in the Go function. -/
def rdAux {α : Type} [DecidableEq α] (seen : List α) : List α → List α
  | [] => []
  | x :: xs => if x ∈ seen then rdAux seen xs else x :: rdAux (x :: seen) xs

/-- Function `removeDuplicates` from `main.go`: keep the first occurrence of each
element, drop later repeats. -/
def removeDuplicates {α : Type} [DecidableEq α] (l : List α) : List α :=
  rdAux [] l

theorem rdAux_sublist {α : Type} [DecidableEq α] (seen : List α) (l : List α) :
    (rdAux seen l).Sublist l := by
  induction l generalizing seen with
  | nil => simp [rdAux]
  | cons x xs ih =>
    simp only [rdAux]
    split
    · exact (ih seen).cons x
    · exact (ih (x :: seen)).cons₂ x

theorem mem_rdAux {α : Type} [DecidableEq α] (seen : List α) (l : List α) (x : α) :
    x ∈ rdAux seen l ↔ x ∈ l ∧ x ∉ seen := by
  induction l generalizing seen with
  | nil => simp [rdAux]
  | cons y ys ih =>
    by_cases hy : y ∈ seen
    · rw [rdAux, if_pos hy, ih seen]
      constructor
      · rintro ⟨h1, h2⟩
        exact ⟨List.mem_cons_of_mem _ h1, h2⟩
      · rintro ⟨h1, h2⟩
        rcases List.mem_cons.mp h1 with rfl | h1
        · exact absurd hy h2
        · exact ⟨h1, h2⟩
    · simp only [rdAux, if_neg hy, List.mem_cons, ih (y :: seen)]
      by_cases hxy : x = y
      · subst hxy
        simp [hy]
      · simp [hxy]

theorem rdAux_nodup {α : Type} [DecidableEq α] (seen : List α) (l : List α) :
    (rdAux seen l).Nodup := by
  induction l generalizing seen with
  | nil => simp [rdAux]
  | cons x xs ih =>
    simp only [rdAux]
    split
    · exact ih seen
    · refine List.nodup_cons.mpr ⟨fun hx => ?_, ih (x :: seen)⟩
      exact ((mem_rdAux _ _ _).mp hx).2 (List.mem_cons_self _ _)

theorem removeDuplicates_nodup {α : Type} [DecidableEq α] (l : List α) :
    (removeDuplicates l).Nodup :=
  rdAux_nodup [] l

theorem removeDuplicates_sublist {α : Type} [DecidableEq α] (l : List α) :
    (removeDuplicates l).Sublist l :=
  rdAux_sublist [] l

theorem mem_removeDuplicates {α : Type} [DecidableEq α] (l : List α) (x : α) :
    x ∈ removeDuplicates l ↔ x ∈ l := by
  rw [removeDuplicates, mem_rdAux]
  simp

theorem rdAux_of_nodup {α : Type} [DecidableEq α] (seen : List α) (l : List α)
    (hd : ∀ x ∈ l, x ∉ seen) (hl : l.Nodup) : rdAux seen l = l := by
  induction l generalizing seen with
  | nil => simp [rdAux]
  | cons x xs ih =>
    have hx : x ∉ seen := hd x (List.mem_cons_self _ _)
    simp only [rdAux, if_neg hx]
    rcases List.nodup_cons.mp hl with ⟨hxxs, hxs⟩
    congr 1
    exact ih (x :: seen) (fun y hy => by
      intro hmem
      rcases List.mem_cons.mp hmem with rfl | h
      · exact hxxs hy
      · exact hd y (List.mem_cons_of_mem _ hy) h) hxs

theorem removeDuplicates_of_nodup {α : Type} [DecidableEq α] (l : List α)
    (hl : l.Nodup) : removeDuplicates l = l :=
  rdAux_of_nodup [] l (by simp) hl

/-! ### Host discovery (`HostDiscovery`, `portDiscovery`) -/

/-- The fixed fallback port set `discoveryPorts` of `HostDiscovery`. -/
def discoveryPorts : List Int := [80, 443, 22, 21, 25, 53, 135, 139, 445]

/-- Function `portDiscovery` from `main.go`: dial each port in sequence and return
`true` on the first successful connect, skipping the rest.  `conn h p`
abstracts `net.DialTimeout("tcp", h:p, 3s)` succeeding. -/
def portDiscovery (conn : String → Int → Bool) (host : String) : List Int → Bool
  | [] => false
  | p :: ps => if conn host p then true else portDiscovery conn host ps

/-- The ports `portDiscovery` actually dials before returning: every port
up to and including the first successful one, or all of them when every
connect fails. -/
def portAttempts (conn : String → Int → Bool) (host : String) : List Int → List Int
  | [] => []
  | p :: ps => if conn host p then [p] else p :: portAttempts conn host ps

/-- Phase-1 result of `HostDiscovery`: the expanded targets whose ping
probe succeeded. -/
def phase1Live (all : List String) (ping : String → Bool) : List String :=
  all.filter ping

/-- List `nonPingHosts` from `HostDiscovery`: the expanded targets that did not
respond to the phase-1 ping probe; exactly these are probed in phase 2. -/
def nonPingHosts (all : List String) (ping : String → Bool) : List String :=
  all.filter (fun h => !ping h)

/-- A target is live when its ping succeeded (phase 1) or some fallback
port accepted a TCP connect (phase 2). -/
def hostLive (ping : String → Bool) (conn : String → Int → Bool) (h : String) : Bool :=
  ping h || portDiscovery conn h discoveryPorts

/-- The `liveHostsList` computed by `HostDiscovery` (the keys of the
`liveHosts` map; Go map iteration order is arbitrary, so the list is
canonicalised to the order of `all` — all facts proved below are
order independent). -/
def liveHostsList (all : List String) (ping : String → Bool)
    (conn : String → Int → Bool) : List String :=
  all.filter (hostLive ping conn)

/-- The store update performed at the end of `HostDiscovery`: every live
host is appended with status `"up"` and an empty port list, and
`UnresponsiveHosts` is set to `len(allHosts) - len(liveHostsList)`.
`raw` is the target list before the `removeDuplicates` call that ends
`expandTargets`. -/
def hostDiscoveryUpdate (r : ScanResults) (raw : List String)
    (ping : String → Bool) (conn : String → Int → Bool) : ScanResults :=
  let all := removeDuplicates raw
  let live := liveHostsList all ping conn
  { Hosts := r.Hosts ++ live.map (fun h => { Host := h, Status := "up", Ports := [] }),
    UnresponsiveHosts := (all.length : Int) - live.length }

/-! ### Built-in port scanner (`PortScan`, `scanHostPorts`, `scanPort`) -/

/-- The fixed `commonPorts` list of `PortScan`. -/
def commonPorts : List Int :=
  [21, 22, 23, 25, 53, 80, 110, 111, 135, 139, 143, 443, 993, 995, 1723,
   3306, 3389, 5432, 5900, 8080, 8443]

/-- The `openPorts` list built by `scanHostPorts`: one `PortInfo` with
state `"open"` and empty service label per port that accepted a TCP
connect in this pass. -/
def openPortsFor (conn : String → Int → Bool) (host : String) (ports : List Int) :
    List PortInfo :=
  (ports.filter (conn host)).map (fun p => { Port := p, State := "open", Service := "" })

/-- The final store write of `scanHostPorts`: the first record whose
`Host` matches has its `Ports` field replaced by `ps`; every other record
is untouched, and nothing is appended when no record matches. -/
def updateHostPorts : List HostInfo → String → List PortInfo → List HostInfo
  | [], _, _ => []
  | h :: hs, host, ps =>
    if h.Host = host then { h with Ports := ps } :: hs
    else h :: updateHostPorts hs host ps

/-- Function `scanHostPorts` from `main.go` as a store transformer: probe every
port of `ports` for `host` and replace (not merge) the host's recorded
port list with the set just found. -/
def scanHostPortsStore (recs : List HostInfo) (conn : String → Int → Bool)
    (host : String) (ports : List Int) : List HostInfo :=
  updateHostPorts recs host (openPortsFor conn host ports)

/-- Function `PortScan` from `main.go` as a store transformer: every host of
`hosts` is scanned over `commonPorts` (host-level concurrency touches
disjoint records, so the sequentialisation is faithful). -/
def portScanStore (recs : List HostInfo) (conn : String → Int → Bool)
    (hosts : List String) : List HostInfo :=
  hosts.foldl (fun acc h => scanHostPortsStore acc conn h commonPorts) recs

/-! ### String primitives for the masscan output parser

`MasscanScan` parses each output line with `strings.TrimSpace`,
`strings.HasPrefix(line, "#")`, `strings.Fields` and `strconv.Atoi`.
Lines are modelled as `List Char` so that these Go library functions can
be embedded as executable recursive functions and reasoned about by
induction. -/

/-- ASCII whitespace, the fragment of `unicode.IsSpace` relevant to
masscan's ASCII output. -/
def isSpaceB (c : Char) : Bool :=
  c = ' ' || c = '\t' || c = '\n' || c = '\x0b' || c = '\x0c' || c = '\r'

/-- Drop leading whitespace. -/
def trimLeft : List Char → List Char
  | [] => []
  | c :: cs => if isSpaceB c then trimLeft cs else c :: cs

/-- Drop trailing whitespace. -/
def trimRight (l : List Char) : List Char :=
  (trimLeft l.reverse).reverse

/-- Model of `strings.TrimSpace`: drop leading and trailing whitespace.  Written
with `trimLeft` outermost so the head of the result is visibly not a
space. -/
def trimSpace (l : List Char) : List Char :=
  trimLeft (trimRight l)

/-- Recursion for `goFields`: `acc` holds the characters of the field
currently being read, in reverse. -/
def fieldsAux (acc : List Char) : List Char → List (List Char)
  | [] => if acc = [] then [] else [acc.reverse]
  | c :: cs =>
    if isSpaceB c then
      if acc = [] then fieldsAux [] cs else acc.reverse :: fieldsAux [] cs
    else fieldsAux (c :: acc) cs

/-- Model of `strings.Fields`: split around runs of whitespace. -/
def goFields (l : List Char) : List (List Char) :=
  fieldsAux [] l

/-- Model of `strings.HasPrefix(line, "#")`. -/
def startsHash : List Char → Bool
  | [] => false
  | c :: _ => c = '#'

/-- Numeric value of a digit list (most significant first). -/
def digitsVal : List Char → Nat → Nat
  | [], acc => acc
  | c :: cs, acc => digitsVal cs (acc * 10 + (c.toNat - 48))

/-- Model of `strconv.Atoi`: an optional sign followed by at least one decimal
digit, rejecting any other character and any value outside the 64-bit
`int` range (`strconv.ErrRange`). -/
def atoi (l : List Char) : Option Int :=
  let (sign, ds) : Int × List Char :=
    match l with
    | '+' :: rest => (1, rest)
    | '-' :: rest => (-1, rest)
    | rest => (1, rest)
  if ds = [] then none
  else if ds.all (fun c => '0' ≤ c && c ≤ '9') then
    let v : Int := sign * digitsVal ds 0
    if -(2 ^ 63) ≤ v ∧ v ≤ 2 ^ 63 - 1 then some v else none
  else none

/-! ### MasscanScan: output parsing, result map, merge and fallback -/

/-- The field test of the `MasscanScan` parse loop: a field list
qualifies only as `open tcp <port> <host> ...` (at least four fields)
with the port accepted by `Atoi`. -/
def parseFields : List (List Char) → Option (String × Int)
  | state :: proto :: portStr :: host :: _ =>
    if state = "open".toList ∧ proto = "tcp".toList then
      match atoi portStr with
      | some p => some (String.mk host, p)
      | none => none
    else none
  | _ => none

/-- Parsing of one masscan output line, exactly as the loop body of
`MasscanScan`: trim, skip empty and `#`-prefixed lines, split into
fields, and accept only qualifying lines.  Returns the `(host, port)`
contribution, or `none` for a skipped line. -/
def parseLine (line : List Char) : Option (String × Int) :=
  if trimSpace line ≠ [] ∧ startsHash (trimSpace line) = false then
    parseFields (goFields (trimSpace line))
  else none

/-- The `PortInfo` recorded for a masscan hit. -/
def mkOpenPort (p : Int) : PortInfo :=
  { Port := p, State := "open", Service := "" }

/-- Append one hit to the `masscanResults` map (association list keyed by
host; a Go map with per-key append). -/
def addPort (acc : List (String × List PortInfo)) (h : String) (pi : PortInfo) :
    List (String × List PortInfo) :=
  match acc with
  | [] => [(h, [pi])]
  | (h', ps) :: rest =>
    if h' = h then (h', ps ++ [pi]) :: rest else (h', ps) :: addPort rest h pi

/-- One step of the `MasscanScan` parse loop: fold a line into the
accumulated `masscanResults` map. -/
def mmStep (acc : List (String × List PortInfo)) (line : List Char) :
    List (String × List PortInfo) :=
  match parseLine line with
  | some hp => addPort acc hp.1 (mkOpenPort hp.2)
  | none => acc

/-- The `masscanResults` map built from the parsed output lines. -/
def mkMasscanResults (lines : List (List Char)) : List (String × List PortInfo) :=
  lines.foldl mmStep []

/-- Lookup in an association list keyed by host. -/
def lookupEntry (acc : List (String × List PortInfo)) (h : String) :
    Option (List PortInfo) :=
  (acc.find? (fun q => q.1 == h)).map (·.2)

/-- The port list a map associates with `h` (empty when absent). -/
def portsAt (acc : List (String × List PortInfo)) (h : String) : List PortInfo :=
  (lookupEntry acc h).getD []

/-- Append `ps` to the `Ports` of the first record named `host`; no
record changes when none matches. -/
def appendPortsFirst : List HostInfo → String → List PortInfo → List HostInfo
  | [], _, _ => []
  | h :: hs, host, ps =>
    if h.Host = host then { h with Ports := h.Ports ++ ps } :: hs
    else h :: appendPortsFirst hs host ps

/-- One iteration of the merge loop at the end of `MasscanScan`: locate
the record for `host` (appending a fresh `"up"` record when absent), then
append the masscan port findings for `host`, if any, to that record. -/
def mergeOne (recs : List HostInfo) (mm : List (String × List PortInfo))
    (host : String) : List HostInfo :=
  let recs' := if recs.any (fun h => h.Host == host) then recs
               else recs ++ [{ Host := host, Status := "up", Ports := [] }]
  match lookupEntry mm host with
  | some ps => appendPortsFirst recs' host ps
  | none => recs'

/-- The full merge loop of `MasscanScan` over the scanned host list. -/
def masscanMergeHosts (recs : List HostInfo) (hosts : List String)
    (mm : List (String × List PortInfo)) : List HostInfo :=
  hosts.foldl (fun acc h => mergeOne acc mm h) recs

/-- Replace the entry for `k` (or append one) in the returned mapping;
Go map assignment `results[k] = v`. -/
def setEntry (acc : List (String × List PortInfo)) (k : String)
    (v : List PortInfo) : List (String × List PortInfo) :=
  match acc with
  | [] => [(k, v)]
  | (h', ps) :: rest =>
    if h' = k then (h', v) :: rest else (h', ps) :: setEntry rest k v

/-- The mapping returned on the fallback path of `MasscanScan`: after
delegating to `PortScan`, every store record with at least one port is
entered into the result map. -/
def fallbackResultsMap (recs : List HostInfo) : List (String × List PortInfo) :=
  recs.foldl (fun acc h => if h.Ports.length > 0 then setEntry acc h.Host h.Ports else acc) []

/-- Environment of one `MasscanScan` call: whether the `masscan` binary
resolves on the path, whether the temporary target file can be created,
and the outcome of the external run (`none` = non-zero exit, launch error
or timeout; `some lines` = its standard output split into lines). -/
structure MasscanEnv where
  masscanOnPath : Bool
  tempFileOk : Bool
  runOutput : Option (List (List Char))

/-- Function `MasscanScan` from `main.go` as a state transformer.  Returns the
updated store, the returned `map[string][]PortInfo`, and whether an
external masscan process was spawned. -/
def masscanScan (hosts : List String) (env : MasscanEnv)
    (conn : String → Int → Bool) (r : ScanResults) :
    ScanResults × List (String × List PortInfo) × Bool :=
  if hosts.isEmpty then (r, [], false)
  else if !env.masscanOnPath then
    let r' := { r with Hosts := portScanStore r.Hosts conn hosts }
    (r', fallbackResultsMap r'.Hosts, false)
  else if !env.tempFileOk then (r, [], false)
  else
    match env.runOutput with
    | none =>
      let r' := { r with Hosts := portScanStore r.Hosts conn hosts }
      (r', fallbackResultsMap r'.Hosts, true)
    | some lines =>
      let mm := mkMasscanResults lines
      ({ r with Hosts := masscanMergeHosts r.Hosts hosts mm }, mm, true)

/-! ### PassiveDiscovery -/

/-- The store update of `PassiveDiscovery`: the deduplicated amass output
is appended with status `"discovered"` and empty port lists.  `raw` is
the concatenation of the per-domain amass host lists. -/
def passiveDiscoveryUpdate (r : ScanResults) (raw : List String) : ScanResults :=
  { r with
    Hosts := r.Hosts ++ (removeDuplicates raw).map
      (fun h => { Host := h, Status := "discovered", Ports := [] }) }

/-! ### ServiceEnumeration -/

/-- The static well-known-port table `serviceMap` of
`ServiceEnumeration`. -/
def serviceMapList : List (Int × String) :=
  [(21, "ftp"), (22, "ssh"), (23, "telnet"), (25, "smtp"), (53, "dns"),
   (80, "http"), (110, "pop3"), (135, "rpc"), (139, "netbios"), (143, "imap"),
   (443, "https"), (993, "imaps"), (995, "pop3s"), (1723, "pptp"),
   (3306, "mysql"), (3389, "rdp"), (5432, "postgresql"), (5900, "vnc"),
   (8080, "http-alt"), (8443, "https-alt")]

/-- Lookup `serviceMap[port]`. -/
def serviceLookup (port : Int) : Option String :=
  (serviceMapList.find? (fun q => q.1 == port)).map (·.2)

/-- The HTTP-family test of `enumerateService`. -/
def isHttpService (s : String) : Bool :=
  s == "http" || s == "https" || s == "http-alt" || s == "https-alt"

/-- The URL built by `enumerateService` for an HTTP-family port. -/
def buildURL (host : String) (port : Int) (service : String) : String :=
  let protocol := if service == "https" || service == "https-alt" then "https" else "http"
  let portStr := if port ≠ 80 ∧ port ≠ 443 then ":" ++ toString port else ""
  protocol ++ "://" ++ host ++ portStr

/-- Function `enumerateService` from `main.go`.  `httpGet url = none` models a
request error (timeout, refused); `some server` models a response whose
`Server` header is `server` (`""` when the header is absent, as
`Header.Get` returns).  The second component counts HTTP requests
issued. -/
def enumerateService (httpGet : String → Option String) (host : String)
    (port : Int) : String × Nat :=
  match serviceLookup port with
  | none => ("unknown", 0)
  | some service =>
    if isHttpService service then
      match httpGet (buildURL host port service) with
      | some server =>
        if server ≠ "" then (service ++ " (" ++ server ++ ")", 1) else (service, 1)
      | none => (service, 1)
    else (service, 0)

/-! ### Worker pool (channel + `p.Threads` goroutines)

Every scanning phase loads its items into a buffered channel, closes it,
and starts `for i := 0; i < k; i++` worker goroutines that range over the
channel.  The channel hands each item to exactly one worker; which worker
is scheduling dependent, so a schedule `sched` records, per item, the
index of the worker that took it.  `spawnedWorkers k` is the number of
goroutines the loop actually starts for a configured (possibly zero or
negative) Go `int` bound `k`. -/

/-- Number of goroutines started by `for i := 0; i < k; i++`. -/
def spawnedWorkers (k : Int) : Nat := k.toNat

/-- Function `min` from `main.go` (Go `int`). -/
def goMin (a b : Int) : Int := if a < b then a else b

/-- Worker count of the phase-1 ping loop: `p.Threads`, uncapped. -/
def phase1WorkerBound (threads : Int) : Int := threads

/-- Worker count of the phase-2 fallback loop: `min(p.Threads, 20)`. -/
def phase2WorkerBound (threads : Int) : Int := goMin threads 20

/-- Worker count of the per-host port fan-out in `scanHostPorts`:
`min(p.Threads, 50)`. -/
def portFanoutBound (threads : Int) : Int := goMin threads 50

/-- The items taken off the channel by worker `j`, in channel order. -/
def assignedTo {α : Type} (items : List α) (sched : List Nat) (j : Nat) : List α :=
  (items.zip sched).filterMap (fun q => if q.2 = j then some q.1 else none)

/-- The multiset of items processed by the whole pool: the union over the
`k` spawned workers of the items each one took. -/
def poolProcessed {α : Type} (items : List α) (sched : List Nat)
    (k : Nat) : Multiset α :=
  Finset.sum (Finset.range k) (fun j => (assignedTo items sched j : Multiset α))

/-! ### Event trace of `HostDiscovery` (for the temporal claim)

Probe completions within a phase are concurrent, so their relative order
is scheduling dependent; but `wg.Wait()` ends phase 1 before phase 2
starts, and both precede the single locked section that appends to
`p.Results`.  The trace below fixes a canonical order inside each phase;
the probes-before-writes shape is the same under every schedule. -/

/-- An observable event of one `HostDiscovery` run: a probe of a host
completing in phase 1 or 2, or one host being appended to the result
store. -/
inductive DiscEvent where
  | probe (phase : Nat) (host : String)
  | storeWrite (host : String)
deriving DecidableEq

/-- The event trace of `HostDiscovery` on raw target list `raw`. -/
def hostDiscoveryTrace (raw : List String) (ping : String → Bool)
    (conn : String → Int → Bool) : List DiscEvent :=
  let all := removeDuplicates raw
  all.map (DiscEvent.probe 1) ++
    (nonPingHosts all ping).map (DiscEvent.probe 2) ++
    (liveHostsList all ping conn).map DiscEvent.storeWrite

/-- Probe events. -/
def isProbe : DiscEvent → Bool
  | DiscEvent.probe _ _ => true
  | _ => false

/-- Store-write events. -/
def isWrite : DiscEvent → Bool
  | DiscEvent.storeWrite _ => true
  | _ => false

/-- Whether some store write strictly precedes some probe in the trace
(`seenWrite` records whether a write has occurred so far). -/
def ewbpAux (seenWrite : Bool) : List DiscEvent → Bool
  | [] => false
  | e :: es =>
    if seenWrite && isProbe e then true else ewbpAux (seenWrite || isWrite e) es

/-- True iff the trace writes to the store before some later probe
completes — i.e. results are committed as probes complete rather than in
one final batch. -/
def existsWriteBeforeProbe (t : List DiscEvent) : Bool :=
  ewbpAux false t

/-! ### Actions performed under the `ScanResults` lock

`ServiceEnumeration` takes the write lock once per host and, inside the
critical section, runs `enumerateService` for every recorded port —
including the `client.Get` network call for HTTP-family services — before
releasing.  The action list below is read directly off that critical
section. -/

/-- What a critical section on the result store may do. -/
inductive LockAction where
  | mutate
  | readRec
  | netCall
deriving DecidableEq

/-- The actions `ServiceEnumeration` performs for one port while holding
the write lock: a network call when the mapped service is HTTP-family,
then the `Service` field assignment. -/
def enumActions (port : Int) : List LockAction :=
  match serviceLookup port with
  | none => [LockAction.mutate]
  | some s =>
    if isHttpService s then [LockAction.netCall, LockAction.mutate]
    else [LockAction.mutate]

/-- The whole critical section `ServiceEnumeration` runs for one host
whose record lists `ports`. -/
def serviceEnumCriticalSection (ports : List Int) : List LockAction :=
  LockAction.readRec :: (ports.map enumActions).flatten

/-- A critical section that performs a blocking network call while the
lock is held. -/
def holdsLockAcrossBlocking (acts : List LockAction) : Bool :=
  acts.contains LockAction.netCall

/-! ### The store-mutating operations and well-formedness (ScanState
invariant) -/

/-- Host identifiers of the store records, in order. -/
def hostNames (recs : List HostInfo) : List String :=
  recs.map (·.Host)

/-- Port numbers currently recorded for the first record named `h`
(empty when no record matches). -/
def currentPortNums (recs : List HostInfo) (h : String) : List Int :=
  ((recs.find? (fun x => x.Host == h)).map (fun x => x.Ports.map (·.Port))).getD []

/-- Well-formedness of the host collection: each host identifier appears
at most once, and within each record each port number appears at most
once. -/
def wfRecs (recs : List HostInfo) : Prop :=
  (hostNames recs).Nodup ∧ ∀ h ∈ recs, (h.Ports.map (·.Port)).Nodup

/-- Well-formedness of the whole result store. -/
def wfStore (r : ScanResults) : Prop :=
  wfRecs r.Hosts

/-- The store-mutating operations of the engine, each carrying the oracle
data that determines its effect. -/
inductive StoreOp where
  | hostDisc (raw : List String) (ping : String → Bool) (conn : String → Int → Bool)
  | passive (raw : List String)
  | masscanMerge (hosts : List String) (mm : List (String × List PortInfo))
  | portScan (hosts : List String) (conn : String → Int → Bool)

/-- Effect of one operation on the store, translated from the
corresponding locked sections of `main.go`. -/
def applyOp (r : ScanResults) : StoreOp → ScanResults
  | StoreOp.hostDisc raw ping conn => hostDiscoveryUpdate r raw ping conn
  | StoreOp.passive raw => passiveDiscoveryUpdate r raw
  | StoreOp.masscanMerge hosts mm =>
    { r with Hosts := masscanMergeHosts r.Hosts hosts mm }
  | StoreOp.portScan hosts conn =>
    { r with Hosts := portScanStore r.Hosts conn hosts }

/-- Effect of a sequence of operations. -/
def applySeq (r : ScanResults) (ops : List StoreOp) : ScanResults :=
  ops.foldl applyOp r

/-! ### Target expansion (`expandTargets`, `inc`)

An IPv4 address is its 32-bit numeric value.  `ipnet.Contains(ip)` masks
`ip` with the high `p` bits and compares with the network address, which
for numeric values is equality of the quotients by the block size
`2^(32-p)`.  `inc` is increment modulo `2^32` (the byte-wise carry wraps
`255.255.255.255` to `0.0.0.0`).  The Go `for ip := ip.Mask(ipnet.Mask);
ipnet.Contains(ip); inc(ip)` loop has no a-priori bound, so it is embedded
with explicit fuel; `expandCIDR` supplies `2^32 + 1` fuel, strictly more
than any IPv4 block can need, so `none` means the loop outran the whole
address space without terminating. -/

/-- Size of a `/p` IPv4 block. -/
def blockSize (p : Nat) : Nat := 2 ^ (32 - p)

/-- Model of `ip.Mask(ipnet.Mask)`: the network address of `ip`'s `/p` block. -/
def netBase (ip p : Nat) : Nat := ip / blockSize p * blockSize p

/-- Model of `ipnet.Contains`: `x` masked equals the network address. -/
def containsIP (base p x : Nat) : Bool := x / blockSize p == base / blockSize p

/-- Function `inc` from `main.go`: byte-wise increment with carry, i.e. increment
modulo `2^32`. -/
def incIP (x : Nat) : Nat := (x + 1) % 2 ^ 32

/-- The CIDR expansion loop of `expandTargets`, with fuel. -/
def expandLoop : Nat → Nat → Nat → Nat → Option (List Nat)
  | 0, _, _, _ => none
  | fuel + 1, p, base, x =>
    if containsIP base p x then
      match expandLoop fuel p base (incIP x) with
      | some rest => some (x :: rest)
      | none => none
    else some []

/-- Expansion of the CIDR block containing `ip` with prefix length `p`:
the loop from the network address, with more fuel than the address space
holds. -/
def expandCIDR (ip p : Nat) : Option (List Nat) :=
  expandLoop (2 ^ 32 + 1) p (netBase ip p) (netBase ip p)

/-- A scan unit emitted by `expandTargets`: an address rendered from a
CIDR expansion, or a non-CIDR target string passed through unchanged. -/
inductive SUnit where
  | addr (n : Nat)
  | name (s : String)
deriving DecidableEq

/-- A raw target after `ParseCIDR` classification: a valid CIDR block
(original address and prefix length) or a non-CIDR target. -/
inductive Target where
  | cidr (ip : Nat) (p : Nat)
  | plain (s : String)

/-- Function `expandTargets` from `main.go`: expand each CIDR block, pass every
other target through unchanged, then `removeDuplicates`.  `none` when
some CIDR expansion loop fails to terminate. -/
def expandTargets (ts : List Target) : Option (List SUnit) :=
  (ts.foldr
    (fun t acc =>
      match acc with
      | none => none
      | some units =>
        match t with
        | Target.cidr ip p =>
          match expandCIDR ip p with
          | some addrs => some (addrs.map SUnit.addr ++ units)
          | none => none
        | Target.plain s => some (SUnit.name s :: units))
    (some [])).map removeDuplicates

/-! ## Claim C7: service identification labels -/

/-- C7: service identification labels every port not in the well-known
table `"unknown"`; a mapped non-HTTP-family port gets the bare table
label with no network call; an HTTP-family port whose single request
succeeds with a non-empty `Server` header gets the header appended
parenthetically; on any request failure or missing header the label stays
the bare service name; and never more than one request is issued (no
retry). -/
theorem serviceIdentification_labels (g : String → Option String) (host : String)
    (port : Int) :
    (serviceLookup port = none → enumerateService g host port = ("unknown", 0))
    ∧ (∀ s, serviceLookup port = some s → isHttpService s = false →
        enumerateService g host port = (s, 0))
    ∧ (∀ s srv, serviceLookup port = some s → isHttpService s = true →
        g (buildURL host port s) = some srv → srv ≠ "" →
        enumerateService g host port = (s ++ " (" ++ srv ++ ")", 1))
    ∧ (∀ s, serviceLookup port = some s → isHttpService s = true →
        (g (buildURL host port s) = none ∨ g (buildURL host port s) = some "") →
        enumerateService g host port = (s, 1))
    ∧ (enumerateService g host port).2 ≤ 1 := by
  refine ⟨?_, ?_, ?_, ?_, ?_⟩
  · intro h
    simp [enumerateService, h]
  · intro s hs hh
    simp [enumerateService, hs, hh]
  · intro s srv hs hh hg hne
    simp [enumerateService, hs, hh, hg, hne]
  · intro s hs hh hg
    rcases hg with hg | hg <;> simp [enumerateService, hs, hh, hg]
  · unfold enumerateService
    cases serviceLookup port with
    | none => simp
    | some s =>
      simp only
      by_cases hh : isHttpService s
      · simp only [hh, if_true]
        cases g (buildURL host port s) with
        | none => simp
        | some srv =>
          by_cases hsrv : srv ≠ "" <;> simp [hsrv]
      · simp [hh]

/-- Witness for C7 at concrete inputs: port 7 is unmapped, port 22 maps
to `ssh` without a request, port 80 with a `Server: nginx` response
yields `http (nginx)`, and port 80 with a failed request stays `http`. -/
theorem serviceIdentification_labels_witness :
    enumerateService (fun _ => none) "h" 7 = ("unknown", 0)
    ∧ enumerateService (fun _ => none) "h" 22 = ("ssh", 0)
    ∧ enumerateService (fun _ => some "nginx") "h" 80 = ("http (nginx)", 1)
    ∧ enumerateService (fun _ => none) "h" 80 = ("http", 1) :=
  ⟨(serviceIdentification_labels (fun _ => none) "h" 7).1 (by decide),
   (serviceIdentification_labels (fun _ => none) "h" 22).2.1 "ssh" (by decide) (by decide),
   (serviceIdentification_labels (fun _ => some "nginx") "h" 80).2.2.1 "http" "nginx"
     (by decide) (by decide) rfl (by decide),
   (serviceIdentification_labels (fun _ => none) "h" 80).2.2.2.1 "http"
     (by decide) (by decide) (Or.inl rfl)⟩

/-! ## Claim C9: the lock is held across a network call -/

/-- C9 (code bug): on the failing input — a host record listing open port
80 — the critical section `ServiceEnumeration` runs under the store's
write lock contains the blocking `client.Get` network call, contradicting
the acquire-mutate-release discipline the claim states. -/
theorem serviceEnum_lockAcrossNetworkCall :
    holdsLockAcrossBlocking (serviceEnumCriticalSection [80]) = true := by decide

/-! ## Claim C6: the built-in port scanner replaces the port collection -/

theorem find?_updateHostPorts (recs : List HostInfo) (host : String)
    (ps : List PortInfo) (rec : HostInfo)
    (h : (updateHostPorts recs host ps).find? (fun x => x.Host == host) = some rec) :
    rec.Ports = ps := by
  induction recs with
  | nil => simp [updateHostPorts] at h
  | cons a recs ih =>
    by_cases ha : a.Host = host
    · rw [updateHostPorts, if_pos ha, List.find?_cons_of_pos _ (by simp [ha])] at h
      cases h
      rfl
    · rw [updateHostPorts, if_neg ha, List.find?_cons_of_neg _ (by simp [ha])] at h
      exact ih h

/-- C6: after `scanHostPorts` finishes a host, the record found for that
host holds exactly the ports that accepted a TCP connect in this pass —
each with state `"open"` and an empty service label, replacing (not
merging with) whatever was recorded before — and a host with no
reachable port ends with an empty port collection. -/
theorem portScanner_replaces (recs : List HostInfo) (conn : String → Int → Bool)
    (host : String) (rec : HostInfo)
    (hfind : (scanHostPortsStore recs conn host commonPorts).find?
        (fun x => x.Host == host) = some rec) :
    rec.Ports = openPortsFor conn host commonPorts
    ∧ (∀ pt ∈ rec.Ports, pt.State = "open" ∧ pt.Service = "")
    ∧ (∀ q : Int, q ∈ rec.Ports.map (·.Port) ↔ q ∈ commonPorts ∧ conn host q = true)
    ∧ ((∀ q ∈ commonPorts, conn host q = false) → rec.Ports = []) := by
  have hrep : rec.Ports = openPortsFor conn host commonPorts :=
    find?_updateHostPorts recs host _ rec hfind
  refine ⟨hrep, ?_, ?_, ?_⟩
  · intro pt hpt
    rw [hrep] at hpt
    simp only [openPortsFor, List.mem_map] at hpt
    obtain ⟨q, _, rfl⟩ := hpt
    exact ⟨rfl, rfl⟩
  · intro q
    rw [hrep]
    simp [openPortsFor, List.map_map, List.mem_filter, Function.comp]
  · intro hnone
    rw [hrep]
    simp only [openPortsFor, List.map_eq_nil_iff, List.filter_eq_nil_iff]
    intro q hq
    simp [hnone q hq]

/-- Witness for C6: scanning host `h` (already recorded with a stale port
1) with a dial oracle that accepts only port 22 leaves exactly one open
port record for 22. -/
theorem portScanner_replaces_witness :
    ({ Host := "h", Status := "up",
       Ports := [{ Port := 22, State := "open", Service := "" }] } : HostInfo).Ports
      = openPortsFor (fun _ q => q == 22) "h" commonPorts :=
  (portScanner_replaces
      [{ Host := "h", Status := "up",
         Ports := [{ Port := 1, State := "open", Service := "" }] }]
      (fun _ q => q == 22) "h" _ (by decide)).1

/-! ## Claim C2: worker pool exactly-once, and the concurrency bounds -/

theorem assignedTo_nil {α : Type} (sched : List Nat) (j : Nat) :
    assignedTo ([] : List α) sched j = [] := by
  simp [assignedTo]

theorem assignedTo_cons {α : Type} (a : α) (items : List α) (s : Nat)
    (sched : List Nat) (j : Nat) :
    assignedTo (a :: items) (s :: sched) j
      = (if s = j then [a] else []) ++ assignedTo items sched j := by
  simp only [assignedTo, List.zip_cons_cons, List.filterMap_cons]
  split <;> simp_all

theorem poolProcessed_eq {α : Type} (items : List α) (sched : List Nat) (k : Nat)
    (hlen : sched.length = items.length) (hbound : ∀ s ∈ sched, s < k) :
    poolProcessed items sched k = (items : Multiset α) := by
  induction items generalizing sched with
  | nil =>
    cases sched with
    | nil => simp [poolProcessed, assignedTo_nil]
    | cons s sched => simp at hlen
  | cons a items ih =>
    cases sched with
    | nil => simp at hlen
    | cons s sched =>
      have hs : s < k := hbound s (List.mem_cons_self _ _)
      have hrest : ∀ x ∈ sched, x < k := fun x hx => hbound x (List.mem_cons_of_mem _ hx)
      have hlen' : sched.length = items.length := by simpa using hlen
      have hsplit : ∀ j, ((assignedTo (a :: items) (s :: sched) j : List α) : Multiset α)
          = (if s = j then ({a} : Multiset α) else 0)
            + (assignedTo items sched j : Multiset α) := by
        intro j
        rw [assignedTo_cons]
        split <;> simp
      unfold poolProcessed
      rw [Finset.sum_congr rfl (fun j _ => hsplit j), Finset.sum_add_distrib,
        Finset.sum_ite_eq (Finset.range k) s (fun _ => ({a} : Multiset α)),
        if_pos (Finset.mem_range.mpr hs)]
      have hrec := ih sched hlen' hrest
      unfold poolProcessed at hrec
      rw [hrec]
      simp

/-- C2 (amended): the shared-channel worker pool processes every item
exactly once whenever at least one worker drains it, and for a configured
thread count of at least 1 the phase-2 liveness-fallback loop spawns
between 1 and 20 workers, the per-host port fan-out spawns between 1 and
50 workers, and phase 1 spawns the full thread count.  (The claimed
clamp of the effective concurrency to at least 1 does not exist in the
code: a thread count ≤ 0 spawns no workers at all, see the
counterexample.) -/
theorem workerPool_exactlyOnce_and_caps :
    (∀ (items : List String) (sched : List Nat) (k : Nat),
        sched.length = items.length → (∀ s ∈ sched, s < k) →
        poolProcessed items sched k = (items : Multiset String))
    ∧ (∀ t : Int, 1 ≤ t →
        1 ≤ spawnedWorkers (phase2WorkerBound t)
        ∧ spawnedWorkers (phase2WorkerBound t) ≤ 20
        ∧ 1 ≤ spawnedWorkers (portFanoutBound t)
        ∧ spawnedWorkers (portFanoutBound t) ≤ 50
        ∧ spawnedWorkers (phase1WorkerBound t) = t.toNat) := by
  constructor
  · intro items sched k h1 h2
    exact poolProcessed_eq items sched k h1 h2
  · intro t ht
    unfold spawnedWorkers phase2WorkerBound portFanoutBound phase1WorkerBound goMin
    refine ⟨?_, ?_, ?_, ?_, rfl⟩ <;> split <;> omega

/-- C2 counterexample: with a configured thread count of 0 the phase-2
loop spawns zero workers (not the claimed minimum of one), and a pool
with zero workers processes none of its items. -/
theorem workerPool_noFloorClamp_cex :
    spawnedWorkers (phase2WorkerBound 0) = 0
    ∧ poolProcessed ["10.0.0.1"] [0] (spawnedWorkers (phase2WorkerBound 0))
        ≠ (["10.0.0.1"] : Multiset String) := by
  refine ⟨rfl, ?_⟩
  intro h
  rw [show spawnedWorkers (phase2WorkerBound 0) = 0 from rfl] at h
  simp [poolProcessed] at h

/-- Witness for C2 at a concrete pool: two items drained by a single
worker under the phase-2 bound for 50 configured threads. -/
theorem workerPool_exactlyOnce_witness :
    poolProcessed ["a", "b"] [0, 0] 1 = (["a", "b"] : Multiset String)
    ∧ 1 ≤ spawnedWorkers (phase2WorkerBound 50)
    ∧ spawnedWorkers (phase2WorkerBound 50) ≤ 20 :=
  ⟨workerPool_exactlyOnce_and_caps.1 ["a", "b"] [0, 0] 1 rfl (by decide),
   (workerPool_exactlyOnce_and_caps.2 50 (by decide)).1,
   (workerPool_exactlyOnce_and_caps.2 50 (by decide)).2.1⟩

/-! ## Claim C3: HostDiscovery postcondition -/

theorem portDiscovery_eq_any (conn : String → Int → Bool) (host : String)
    (ports : List Int) : portDiscovery conn host ports = ports.any (conn host) := by
  induction ports with
  | nil => rfl
  | cons p ps ih =>
    rw [portDiscovery, List.any_cons]
    by_cases hc : conn host p <;> simp [hc, ih]

theorem portAttempts_shortCircuit (conn : String → Int → Bool) (host : String)
    (ports : List Int) :
    portAttempts conn host ports
      = ports.takeWhile (fun p => !conn host p)
        ++ (ports.dropWhile (fun p => !conn host p)).take 1 := by
  induction ports with
  | nil => rfl
  | cons p ps ih =>
    by_cases hc : conn host p
    · simp [portAttempts, List.takeWhile_cons, List.dropWhile_cons, hc]
    · simp [portAttempts, List.takeWhile_cons, List.dropWhile_cons, hc, ih]

/-- C3: phase 2 probes exactly the expanded targets that did not respond
to the phase-1 ping; the fallback ports are dialled in sequence with the
first success short-circuiting the rest (and success iff any fallback
port connects); a host failing ping and all fallback ports is not in the
live list; and the recorded unresponsive count plus the number of live
hosts equals the number of expanded targets. -/
theorem hostDiscovery_postcondition (r : ScanResults) (raw : List String)
    (ping : String → Bool) (conn : String → Int → Bool) :
    (∀ h, h ∈ nonPingHosts (removeDuplicates raw) ping ↔
        h ∈ removeDuplicates raw ∧ h ∉ phase1Live (removeDuplicates raw) ping)
    ∧ (∀ host ports, portDiscovery conn host ports = ports.any (conn host)
        ∧ portAttempts conn host ports
            = ports.takeWhile (fun p => !conn host p)
              ++ (ports.dropWhile (fun p => !conn host p)).take 1)
    ∧ (∀ h, h ∈ removeDuplicates raw → ping h = false →
        (∀ p ∈ discoveryPorts, conn h p = false) →
        h ∉ liveHostsList (removeDuplicates raw) ping conn)
    ∧ (hostDiscoveryUpdate r raw ping conn).UnresponsiveHosts
        + ((liveHostsList (removeDuplicates raw) ping conn).length : Int)
        = ((removeDuplicates raw).length : Int) := by
  refine ⟨?_, ?_, ?_, ?_⟩
  · intro h
    simp only [nonPingHosts, phase1Live, List.mem_filter, Bool.not_eq_true']
    constructor
    · rintro ⟨hm, hp⟩
      exact ⟨hm, fun hc => by simp [hc.2] at hp⟩
    · rintro ⟨hm, hp⟩
      refine ⟨hm, ?_⟩
      by_cases hpg : ping h
      · exact absurd ⟨hm, hpg⟩ hp
      · simpa using hpg
  · intro host ports
    exact ⟨portDiscovery_eq_any conn host ports, portAttempts_shortCircuit conn host ports⟩
  · intro h hm hping hports
    simp only [liveHostsList, List.mem_filter, hostLive]
    rintro ⟨-, hlive⟩
    rw [hping, portDiscovery_eq_any] at hlive
    simp only [Bool.false_or, List.any_eq_true] at hlive
    obtain ⟨p, hp, hc⟩ := hlive
    rw [hports p hp] at hc
    cases hc
  · simp only [hostDiscoveryUpdate]
    ring

/-- Witness for C3: for targets `a` (ping-responsive) and `b`
(unreachable on every port), `b` stays out of the live list and the
recorded unresponsive count balances the live count. -/
theorem hostDiscovery_postcondition_witness :
    "b" ∉ liveHostsList (removeDuplicates ["a", "b"]) (fun h => h == "a")
        (fun _ _ => false)
    ∧ (hostDiscoveryUpdate { Hosts := [], UnresponsiveHosts := 0 } ["a", "b"]
          (fun h => h == "a") (fun _ _ => false)).UnresponsiveHosts
        + ((liveHostsList (removeDuplicates ["a", "b"]) (fun h => h == "a")
            (fun _ _ => false)).length : Int)
        = ((removeDuplicates ["a", "b"]).length : Int) :=
  ⟨(hostDiscovery_postcondition { Hosts := [], UnresponsiveHosts := 0 } ["a", "b"]
      (fun h => h == "a") (fun _ _ => false)).2.2.1 "b"
      (by decide) (by decide) (by decide),
   (hostDiscovery_postcondition { Hosts := [], UnresponsiveHosts := 0 } ["a", "b"]
      (fun h => h == "a") (fun _ _ => false)).2.2.2⟩

/-! ## Claim C8: discovery results are committed in one final batch -/

theorem isProbe_probe (ph : Nat) (h : String) : isProbe (DiscEvent.probe ph h) = true := rfl

theorem isWrite_write (h : String) : isWrite (DiscEvent.storeWrite h) = true := rfl

theorem filter_isProbe_map_probe (ph : Nat) (l : List String) :
    (l.map (DiscEvent.probe ph)).filter isProbe = l.map (DiscEvent.probe ph) := by
  induction l with
  | nil => rfl
  | cons a l ih => simp [List.filter_cons, isProbe, ih]

theorem filter_isWrite_map_probe (ph : Nat) (l : List String) :
    (l.map (DiscEvent.probe ph)).filter isWrite = [] := by
  induction l with
  | nil => rfl
  | cons a l ih => simp [List.filter_cons, isWrite, ih]

theorem filter_isProbe_map_write (l : List String) :
    (l.map DiscEvent.storeWrite).filter isProbe = [] := by
  induction l with
  | nil => rfl
  | cons a l ih => simp [List.filter_cons, isProbe, ih]

theorem filter_isWrite_map_write (l : List String) :
    (l.map DiscEvent.storeWrite).filter isWrite = l.map DiscEvent.storeWrite := by
  induction l with
  | nil => rfl
  | cons a l ih => simp [List.filter_cons, isWrite, ih]

/-- C8 (amended): the two liveness phases accumulate discovered hosts in
a phase-local set; the result store receives all of them in a single
batch after both phases have completed — in the event trace every probe
precedes every store write, and the writes are exactly the live-host
batch. -/
theorem hostDiscovery_writesBatched (raw : List String) (ping : String → Bool)
    (conn : String → Int → Bool) :
    hostDiscoveryTrace raw ping conn
      = (hostDiscoveryTrace raw ping conn).filter isProbe
        ++ (hostDiscoveryTrace raw ping conn).filter isWrite
    ∧ (hostDiscoveryTrace raw ping conn).filter isWrite
      = (liveHostsList (removeDuplicates raw) ping conn).map DiscEvent.storeWrite := by
  constructor
  · simp [hostDiscoveryTrace, List.filter_append, filter_isProbe_map_probe,
      filter_isWrite_map_probe, filter_isProbe_map_write, filter_isWrite_map_write]
  · simp [hostDiscoveryTrace, List.filter_append, filter_isProbe_map_probe,
      filter_isWrite_map_probe, filter_isProbe_map_write, filter_isWrite_map_write]

/-- C8 counterexample: with targets `a` (ping-responsive) and `b` (dead),
host `a` is discovered in phase 1 and phase 2 still probes `b`, yet no
store write precedes any probe — the store is not written as probes
complete. -/
theorem hostDiscovery_writesBatched_cex :
    existsWriteBeforeProbe
        (hostDiscoveryTrace ["a", "b"] (fun h => h == "a") (fun _ _ => false)) = false
    ∧ liveHostsList (removeDuplicates ["a", "b"]) (fun h => h == "a")
        (fun _ _ => false) ≠ []
    ∧ nonPingHosts (removeDuplicates ["a", "b"]) (fun h => h == "a") ≠ [] := by
  decide

/-! ## Claim C10: the fallback path returns exactly the hosts with open
ports -/

theorem lookupEntry_nil (x : String) : lookupEntry [] x = none := rfl

theorem lookupEntry_cons (a : String) (ps : List PortInfo)
    (rest : List (String × List PortInfo)) (x : String) :
    lookupEntry ((a, ps) :: rest) x = if a = x then some ps else lookupEntry rest x := by
  by_cases hx : a = x
  · rw [lookupEntry, List.find?_cons_of_pos _ (by simp [hx]), if_pos hx]
    rfl
  · rw [lookupEntry, List.find?_cons_of_neg _ (by simp [hx]), if_neg hx]
    rfl

theorem lookupEntry_setEntry_isSome (acc : List (String × List PortInfo))
    (k x : String) (v : List PortInfo) :
    (lookupEntry (setEntry acc k v) x).isSome = true
      ↔ x = k ∨ (lookupEntry acc x).isSome = true := by
  induction acc with
  | nil =>
    rw [setEntry, lookupEntry_cons, lookupEntry_nil]
    by_cases hx : k = x
    · rw [if_pos hx]
      simp [hx]
    · rw [if_neg hx]
      simp [Ne.symm hx]
  | cons q rest ih =>
    obtain ⟨a, ps⟩ := q
    by_cases hk : a = k
    · subst hk
      rw [setEntry, if_pos rfl, lookupEntry_cons, lookupEntry_cons]
      by_cases hx : a = x
      · rw [if_pos hx, if_pos hx]
        simp
      · rw [if_neg hx, if_neg hx]
        constructor
        · exact fun h => Or.inr h
        · rintro (rfl | h)
          · exact absurd rfl hx
          · exact h
    · rw [setEntry, if_neg hk, lookupEntry_cons, lookupEntry_cons]
      by_cases hx : a = x
      · rw [if_pos hx, if_pos hx]
        simp
      · rw [if_neg hx, if_neg hx]
        exact ih

theorem fallback_fold_mem (recs : List HostInfo)
    (acc : List (String × List PortInfo)) (x : String) :
    (lookupEntry
        (recs.foldl
          (fun acc h => if h.Ports.length > 0 then setEntry acc h.Host h.Ports else acc)
          acc) x).isSome = true
      ↔ (lookupEntry acc x).isSome = true
        ∨ ∃ hrec ∈ recs, hrec.Host = x ∧ hrec.Ports ≠ [] := by
  induction recs generalizing acc with
  | nil => simp
  | cons rec rest ih =>
    rw [List.foldl_cons, ih]
    by_cases hp : rec.Ports.length > 0
    · rw [if_pos hp, lookupEntry_setEntry_isSome]
      have hne : rec.Ports ≠ [] := by
        intro hnil
        rw [hnil] at hp
        simp at hp
      constructor
      · rintro ((rfl | hacc) | hex)
        · exact Or.inr ⟨rec, List.mem_cons_self _ _, rfl, hne⟩
        · exact Or.inl hacc
        · obtain ⟨hr, hm, hhx, hpne⟩ := hex
          exact Or.inr ⟨hr, List.mem_cons_of_mem _ hm, hhx, hpne⟩
      · rintro (hacc | ⟨hr, hm, hhx, hpne⟩)
        · exact Or.inl (Or.inr hacc)
        · rcases List.mem_cons.mp hm with rfl | hm
          · exact Or.inl (Or.inl hhx.symm)
          · exact Or.inr ⟨hr, hm, hhx, hpne⟩
    · rw [if_neg hp]
      have hnil : rec.Ports = [] := by
        rcases List.eq_nil_or_concat rec.Ports with h | ⟨l, a, h⟩
        · exact h
        · exfalso
          rw [h] at hp
          simp at hp
      constructor
      · rintro (hacc | ⟨hr, hm, hhx, hpne⟩)
        · exact Or.inl hacc
        · exact Or.inr ⟨hr, List.mem_cons_of_mem _ hm, hhx, hpne⟩
      · rintro (hacc | ⟨hr, hm, hhx, hpne⟩)
        · exact Or.inl hacc
        · rcases List.mem_cons.mp hm with rfl | hm
          · exact absurd hnil hpne
          · exact Or.inr ⟨hr, hm, hhx, hpne⟩

theorem fallback_mem (recs : List HostInfo) (x : String) :
    (lookupEntry (fallbackResultsMap recs) x).isSome = true
      ↔ ∃ hrec ∈ recs, hrec.Host = x ∧ hrec.Ports ≠ [] := by
  rw [fallbackResultsMap, fallback_fold_mem]
  simp [lookupEntry]

theorem masscanScan_fallback (hosts : List String) (mp tf : Bool)
    (ro : Option (List (List Char))) (conn : String → Int → Bool) (r : ScanResults)
    (hne : hosts.isEmpty = false)
    (hfb : mp = false ∨ (tf = true ∧ ro = none)) :
    masscanScan hosts { masscanOnPath := mp, tempFileOk := tf, runOutput := ro } conn r
      = ({ r with Hosts := portScanStore r.Hosts conn hosts },
         fallbackResultsMap (portScanStore r.Hosts conn hosts), mp) := by
  rcases hfb with rfl | ⟨rfl, rfl⟩
  · simp [masscanScan, hne]
  · cases mp with
    | false => simp [masscanScan, hne]
    | true => simp [masscanScan, hne]

/-- C10: on the fallback path of `MasscanScan` (binary absent, or the
external run failing after a successful temp-file creation), the returned
mapping contains a host exactly when the post-scan result store holds a
record for it with at least one open port; a scanned host that ended with
zero open ports is absent from the mapping. -/
theorem masscanFallback_mapping (hosts : List String) (env : MasscanEnv)
    (conn : String → Int → Bool) (r : ScanResults) (x : String)
    (hne : hosts ≠ [])
    (hfb : env.masscanOnPath = false ∨ (env.tempFileOk = true ∧ env.runOutput = none)) :
    (lookupEntry (masscanScan hosts env conn r).2.1 x).isSome = true
      ↔ ∃ hrec ∈ (masscanScan hosts env conn r).1.Hosts,
          hrec.Host = x ∧ hrec.Ports ≠ [] := by
  have hempty : hosts.isEmpty = false := by
    cases hosts with
    | nil => exact absurd rfl hne
    | cons a l => rfl
  obtain ⟨mp, tf, ro⟩ := env
  rw [masscanScan_fallback hosts mp tf ro conn r hempty hfb]
  exact fallback_mem _ x

/-- Concrete environment for the C10 witness: masscan binary absent. -/
def c10Env : MasscanEnv :=
  { masscanOnPath := false, tempFileOk := true, runOutput := none }

/-- Concrete pre-scan store for the C10 witness. -/
def c10Store : ScanResults :=
  { Hosts := [{ Host := "a", Status := "up", Ports := [] }], UnresponsiveHosts := 0 }

/-- Witness for C10: masscan absent, one scanned host `a` whose record
gains open port 22 — `a` is present in the returned mapping, matching its
non-empty store record. -/
theorem masscanFallback_mapping_witness :
    (lookupEntry (masscanScan ["a"] c10Env (fun _ q => q == 22) c10Store).2.1
        "a").isSome = true
      ↔ ∃ hrec ∈ (masscanScan ["a"] c10Env (fun _ q => q == 22) c10Store).1.Hosts,
          hrec.Host = "a" ∧ hrec.Ports ≠ [] :=
  masscanFallback_mapping ["a"] c10Env (fun _ q => q == 22) c10Store "a"
    (by decide) (Or.inl rfl)

/-! ## Claim C5: the masscan line parser -/

theorem goFields_nil : goFields [] = [] := rfl

theorem fieldsAux_acc_struct (cs : List Char) (acc : List Char) (hacc : acc ≠ []) :
    ∃ t rest, fieldsAux acc cs = (acc.reverse ++ t) :: rest := by
  induction cs generalizing acc with
  | nil => exact ⟨[], [], by simp [fieldsAux, hacc]⟩
  | cons c cs ih =>
    by_cases hsp : isSpaceB c
    · refine ⟨[], fieldsAux [] cs, ?_⟩
      simp [fieldsAux, hsp, hacc]
    · obtain ⟨t, rest, h⟩ := ih (c :: acc) (by simp)
      refine ⟨c :: t, rest, ?_⟩
      rw [fieldsAux]
      simp only [hsp, Bool.false_eq_true, if_false, h, List.reverse_cons,
        List.append_assoc, List.singleton_append]

theorem goFields_cons_not_space (c : Char) (cs : List Char)
    (hsp : isSpaceB c = false) :
    ∃ t rest, goFields (c :: cs) = (c :: t) :: rest := by
  obtain ⟨t, rest, h⟩ := fieldsAux_acc_struct cs [c] (by simp)
  refine ⟨t, rest, ?_⟩
  rw [goFields, fieldsAux]
  simp only [hsp, Bool.false_eq_true, if_false]
  simpa using h

theorem trimLeft_head (l : List Char) :
    trimLeft l = [] ∨ ∃ c cs, trimLeft l = c :: cs ∧ isSpaceB c = false := by
  induction l with
  | nil => exact Or.inl rfl
  | cons c cs ih =>
    by_cases hsp : isSpaceB c
    · simpa [trimLeft, hsp] using ih
    · exact Or.inr ⟨c, cs, by simp [trimLeft, hsp], by simpa using hsp⟩

theorem trimSpace_head (l : List Char) :
    trimSpace l = [] ∨ ∃ c cs, trimSpace l = c :: cs ∧ isSpaceB c = false :=
  trimLeft_head (trimRight l)

theorem goFields_guard (line : List Char) (x : List Char) (xs : List (List Char))
    (hx : goFields (trimSpace line) = x :: xs) (hc : x = "open".toList) :
    trimSpace line ≠ [] ∧ startsHash (trimSpace line) = false := by
  rcases trimSpace_head line with hnil | ⟨c, cs, hcons, hsp⟩
  · rw [hnil, goFields_nil] at hx
    cases hx
  · obtain ⟨t, rest, h⟩ := goFields_cons_not_space c cs hsp
    rw [hcons, h] at hx
    have hcx : c :: t = x := (List.cons.injEq _ _ _ _).mp hx |>.1
    have hco : c = 'o' := by
      rw [hc] at hcx
      exact (List.cons.injEq _ _ _ _).mp hcx |>.1
    refine ⟨by simp [hcons], ?_⟩
    rw [hcons, startsHash, hco]
    decide

theorem portsAt_nil (h : String) : portsAt [] h = [] := rfl

theorem portsAt_cons (a : String) (ps : List PortInfo)
    (rest : List (String × List PortInfo)) (h : String) :
    portsAt ((a, ps) :: rest) h = if a = h then ps else portsAt rest h := by
  rw [portsAt, lookupEntry_cons]
  by_cases hh : a = h <;> simp [hh, portsAt]

theorem portsAt_addPort (acc : List (String × List PortInfo)) (h h' : String)
    (pi : PortInfo) :
    portsAt (addPort acc h pi) h'
      = portsAt acc h' ++ if h = h' then [pi] else [] := by
  induction acc with
  | nil =>
    rw [show addPort [] h pi = [(h, [pi])] from rfl, portsAt_cons, portsAt_nil]
    by_cases hh : h = h' <;> simp [hh]
  | cons q rest ih =>
    obtain ⟨a, ps⟩ := q
    by_cases ha : a = h
    · subst ha
      rw [show addPort ((a, ps) :: rest) a pi = (a, ps ++ [pi]) :: rest from by
        rw [addPort, if_pos rfl]]
      rw [portsAt_cons, portsAt_cons]
      by_cases hh : a = h' <;> simp [hh]
    · rw [show addPort ((a, ps) :: rest) h pi = (a, ps) :: addPort rest h pi from by
        rw [addPort, if_neg ha]]
      rw [portsAt_cons, portsAt_cons]
      by_cases hh : a = h'
      · have hne : h ≠ h' := fun he => ha (he ▸ hh)
        simp [hh, hne]
      · simp [hh, ih]

theorem portsAt_mkFold (lines : List (List Char))
    (acc : List (String × List PortInfo)) (h : String) :
    portsAt (lines.foldl mmStep acc) h
      = portsAt acc h
        ++ (lines.filterMap parseLine).filterMap
            (fun q => if q.1 = h then some (mkOpenPort q.2) else none) := by
  induction lines generalizing acc with
  | nil => simp
  | cons line lines ih =>
    rw [List.foldl_cons, ih]
    cases hp : parseLine line with
    | none =>
      rw [show mmStep acc line = acc from by simp only [mmStep, hp],
        List.filterMap_cons, hp]
    | some q =>
      rw [show mmStep acc line = addPort acc q.1 (mkOpenPort q.2) from by
        simp only [mmStep, hp]]
      rw [portsAt_addPort, List.filterMap_cons, hp]
      by_cases hq : q.1 = h
      · simp [hq, List.append_assoc]
      · simp [hq]

theorem parseFields_isSome_iff (parts : List (List Char)) :
    (parseFields parts).isSome = true
      ↔ 4 ≤ parts.length
        ∧ parts.getD 0 [] = "open".toList
        ∧ parts.getD 1 [] = "tcp".toList
        ∧ (atoi (parts.getD 2 [])).isSome = true := by
  match parts with
  | [] => simp [parseFields]
  | [a] => simp [parseFields]
  | [a, b] => simp [parseFields]
  | [a, b, c] => simp [parseFields]
  | a :: b :: c :: d :: rest =>
    simp only [parseFields, List.length_cons, List.getD_cons_zero,
      List.getD_cons_succ]
    constructor
    · intro h
      by_cases hcond : a = "open".toList ∧ b = "tcp".toList
      · rw [if_pos hcond] at h
        cases hat : atoi c with
        | none =>
          rw [hat] at h
          simp at h
        | some p => exact ⟨by omega, hcond.1, hcond.2, rfl⟩
      · rw [if_neg hcond] at h
        simp at h
    · rintro ⟨hlen, h0, h1, h2⟩
      rw [if_pos ⟨h0, h1⟩]
      cases hat : atoi c with
      | none =>
        rw [hat] at h2
        simp at h2
      | some p => rfl

/-- C5: a masscan output line contributes to the host-to-ports mapping
iff its first field is `open`, its second is `tcp`, its third parses
under `Atoi`, and a fourth field (the host) exists; the mapping
associates to each host exactly the ports of its qualifying lines, in
order; and a `MasscanScan` call with an empty host list returns the
unchanged store, an empty mapping and spawns no external process. -/
theorem masscanParse_spec :
    (∀ line : List Char,
        (parseLine line).isSome = true
          ↔ 4 ≤ (goFields (trimSpace line)).length
            ∧ (goFields (trimSpace line)).getD 0 [] = "open".toList
            ∧ (goFields (trimSpace line)).getD 1 [] = "tcp".toList
            ∧ (atoi ((goFields (trimSpace line)).getD 2 [])).isSome = true)
    ∧ (∀ (lines : List (List Char)) (h : String),
        portsAt (mkMasscanResults lines) h
          = (lines.filterMap parseLine).filterMap
              (fun q => if q.1 = h then some (mkOpenPort q.2) else none))
    ∧ (∀ (env : MasscanEnv) (conn : String → Int → Bool) (r : ScanResults),
        masscanScan [] env conn r = (r, [], false)) := by
  refine ⟨?_, ?_, fun env conn r => rfl⟩
  · intro line
    rw [parseLine]
    by_cases hg : trimSpace line ≠ [] ∧ startsHash (trimSpace line) = false
    · rw [if_pos hg]
      exact parseFields_isSome_iff _
    · rw [if_neg hg]
      simp only [Option.isSome_none, Bool.false_eq_true, false_iff]
      rintro ⟨hlen, h0, h1, h2⟩
      cases hgf : goFields (trimSpace line) with
      | nil =>
        rw [hgf] at hlen
        simp at hlen
      | cons x xs =>
        rw [hgf] at h0
        simp only [List.getD_cons_zero] at h0
        exact hg (goFields_guard line x xs hgf h0)
  · intro lines h
    rw [mkMasscanResults, portsAt_mkFold]
    simp [portsAt, lookupEntry]

/-- Concrete environment for the C5 witness. -/
def c5Env : MasscanEnv :=
  { masscanOnPath := true, tempFileOk := true, runOutput := some [] }

/-- Witness for C5 at the spec's concrete lines: the qualifying line
`open tcp 80 10.0.0.5 1690000000` contributes, the non-open line is
skipped, the resulting mapping holds exactly port 80 for `10.0.0.5`, and
an empty host list short-circuits. -/
theorem masscanParse_witness :
    (parseLine ("open tcp 80 10.0.0.5 1690000000".toList)).isSome = true
    ∧ portsAt (mkMasscanResults ["open tcp 80 10.0.0.5 1690000000".toList,
        "closed tcp 81 10.0.0.5 1690000000".toList]) "10.0.0.5" = [mkOpenPort 80]
    ∧ masscanScan [] c5Env (fun _ _ => false)
        { Hosts := [], UnresponsiveHosts := 0 }
        = ({ Hosts := [], UnresponsiveHosts := 0 }, [], false) :=
  ⟨(masscanParse_spec.1 _).mpr (by decide),
   by
    rw [masscanParse_spec.2.1]
    decide,
   masscanParse_spec.2.2 c5Env (fun _ _ => false) { Hosts := [], UnresponsiveHosts := 0 }⟩

/-! ## Claim C4: CIDR expansion -/

theorem expandLoop_mono (f f' : Nat) (hf : f ≤ f') (p base x : Nat) (r : List Nat)
    (h : expandLoop f p base x = some r) : expandLoop f' p base x = some r := by
  induction f generalizing f' x r with
  | zero => simp [expandLoop] at h
  | succ f ih =>
    cases f' with
    | zero => omega
    | succ f' =>
      rw [expandLoop] at h ⊢
      cases hc : containsIP base p x with
      | false =>
        rw [hc] at h
        simpa using h
      | true =>
        rw [hc] at h
        simp only [if_true] at h ⊢
        cases he : expandLoop f p base (incIP x) with
        | none =>
          rw [he] at h
          cases h
        | some rest =>
          rw [he] at h
          rw [ih f' (by omega) (incIP x) rest he]
          exact h

theorem blockSize_pos (p : Nat) : 0 < blockSize p :=
  Nat.pos_pow_of_pos _ (by omega)

theorem blockSize_mul_pow (p : Nat) (hp : p ≤ 32) :
    blockSize p * 2 ^ p = 2 ^ 32 := by
  rw [blockSize, ← pow_add]
  congr 1
  omega

theorem expandLoop_block (p : Nat) (hp1 : 1 ≤ p) (hp2 : p ≤ 32) (q : Nat)
    (hq : (q + 1) * blockSize p ≤ 2 ^ 32) :
    ∀ m x, q * blockSize p ≤ x → x + m = q * blockSize p + blockSize p →
      expandLoop (m + 1) p (q * blockSize p) x = some (List.range' x m) := by
  have hbs : 0 < blockSize p := blockSize_pos p
  have hbase : q * blockSize p / blockSize p = q := Nat.mul_div_cancel q hbs
  intro m
  induction m with
  | zero =>
    intro x hlo hsum
    have hx : x = (q + 1) * blockSize p := by
      rw [Nat.succ_mul]
      omega
    have hdiv : x / blockSize p = q + 1 := by
      rw [hx]
      exact Nat.mul_div_cancel _ hbs
    have hc : containsIP (q * blockSize p) p x = false := by
      rw [containsIP, hbase, hdiv]
      simp
    rw [expandLoop, hc]
    simp
  | succ m ih =>
    intro x hlo hsum
    have hxlt : x < (q + 1) * blockSize p := by
      rw [Nat.succ_mul]
      omega
    have hdiv : x / blockSize p = q := Nat.div_eq_of_lt_le hlo hxlt
    have hc : containsIP (q * blockSize p) p x = true := by
      rw [containsIP, hbase, hdiv]
      simp
    rw [expandLoop, hc]
    simp only [if_true]
    by_cases hwrap : x + 1 < 2 ^ 32
    · have hinc : incIP x = x + 1 := Nat.mod_eq_of_lt hwrap
      rw [hinc, ih (x + 1) (by omega) (by omega), List.range'_succ]
    · have hx1 : x + 1 = 2 ^ 32 := by
        have : x + 1 ≤ (q + 1) * blockSize p := hxlt
        omega
      have hsucc : (q + 1) * blockSize p = q * blockSize p + blockSize p :=
        Nat.succ_mul q _
      have hm0 : m = 0 ∧ (q + 1) * blockSize p = 2 ^ 32 := by
        constructor <;> omega
      have hinc : incIP x = 0 := by
        rw [incIP, hx1, Nat.mod_self]
      have hq1 : q + 1 = 2 ^ p := by
        have h32 : blockSize p * 2 ^ p = 2 ^ 32 := blockSize_mul_pow p hp2
        have := hm0.2
        have h2 : (q + 1) * blockSize p = 2 ^ p * blockSize p := by
          rw [mul_comm (2 ^ p) (blockSize p), h32, this]
        exact Nat.eq_of_mul_eq_mul_right hbs h2
      have hqpos : 1 ≤ q := by
        have h2p : 2 ≤ 2 ^ p := by
          calc 2 = 2 ^ 1 := rfl
          _ ≤ 2 ^ p := Nat.pow_le_pow_right (by omega) hp1
        omega
      have hc0 : containsIP (q * blockSize p) p 0 = false := by
        rw [containsIP, hbase, Nat.zero_div]
        simp only [beq_eq_false_iff_ne, ne_eq]
        omega
      rw [hinc, hm0.1, expandLoop, hc0]
      simp [List.range'_succ]

theorem expandCIDR_ok (ip p : Nat) (hp1 : 1 ≤ p) (hp2 : p ≤ 32) (hip : ip < 2 ^ 32) :
    expandCIDR ip p = some (List.range' (netBase ip p) (blockSize p)) := by
  have hbs : 0 < blockSize p := blockSize_pos p
  have h32 : blockSize p * 2 ^ p = 2 ^ 32 := blockSize_mul_pow p hp2
  have hqlt : ip / blockSize p < 2 ^ p := by
    rw [Nat.div_lt_iff_lt_mul hbs, mul_comm, h32]
    exact hip
  have hq : (ip / blockSize p + 1) * blockSize p ≤ 2 ^ 32 := by
    calc (ip / blockSize p + 1) * blockSize p
        ≤ 2 ^ p * blockSize p := Nat.mul_le_mul_right _ (by omega)
    _ = 2 ^ 32 := by rw [mul_comm]; exact h32
  have hmain := expandLoop_block p hp1 hp2 (ip / blockSize p) hq (blockSize p)
    (ip / blockSize p * blockSize p) le_rfl rfl
  rw [expandCIDR]
  have hfuel : blockSize p + 1 ≤ 2 ^ 32 + 1 := by
    have : blockSize p ≤ 2 ^ 32 := by
      rw [blockSize]
      exact Nat.pow_le_pow_right (by omega) (by omega)
    omega
  exact expandLoop_mono _ _ hfuel _ _ _ _ hmain

theorem expandLoop_slash0_none (f : Nat) :
    ∀ x, x < 2 ^ 32 → expandLoop f 0 0 x = none := by
  induction f with
  | zero => intro x _; rfl
  | succ f ih =>
    intro x hx
    have hc : containsIP 0 0 x = true := by
      rw [containsIP]
      have h1 : x / blockSize 0 = 0 :=
        Nat.div_eq_of_lt (by rw [blockSize]; simpa using hx)
      rw [h1, Nat.zero_div]
      rfl
    rw [expandLoop, hc]
    simp only [if_true]
    rw [ih (incIP x) (Nat.mod_lt _ (by norm_num))]

/-- C4 (amended): for every IPv4 CIDR block with prefix length between 1
and 32, expansion terminates and emits exactly `2^(32-p)` addresses —
the whole block from the network address, in ascending numeric order,
each exactly once, so deduplication leaves the list unchanged; a
non-CIDR target is emitted unchanged ahead of the rest; and global
deduplication keeps the first occurrence of each unit, preserving
first-seen order (the output is a duplicate-free sublist of the input
with the same elements).  For prefix length 0 the expansion loop never
terminates (see the counterexample), so the claimed `2^32` addresses are
never produced. -/
theorem expandTargets_spec :
    (∀ ip p, 1 ≤ p → p ≤ 32 → ip < 2 ^ 32 →
      ∃ l, expandCIDR ip p = some l
        ∧ l.length = 2 ^ (32 - p)
        ∧ l.Pairwise (· < ·)
        ∧ l.Nodup
        ∧ removeDuplicates l = l)
    ∧ (∀ (s : String) (ts : List Target) (units : List SUnit),
        (ts.foldr
          (fun t acc =>
            match acc with
            | none => none
            | some units =>
              match t with
              | Target.cidr ip p =>
                match expandCIDR ip p with
                | some addrs => some (addrs.map SUnit.addr ++ units)
                | none => none
              | Target.plain s => some (SUnit.name s :: units))
          (some [])) = some units →
        expandTargets (Target.plain s :: ts) = some (removeDuplicates (SUnit.name s :: units)))
    ∧ (∀ us : List SUnit, (removeDuplicates us).Nodup
        ∧ (removeDuplicates us).Sublist us
        ∧ ∀ u, u ∈ removeDuplicates us ↔ u ∈ us) := by
  refine ⟨?_, ?_, ?_⟩
  · intro ip p hp1 hp2 hip
    refine ⟨List.range' (netBase ip p) (blockSize p), expandCIDR_ok ip p hp1 hp2 hip,
      List.length_range' .., List.pairwise_lt_range' .., List.nodup_range' ..,
      removeDuplicates_of_nodup _ (List.nodup_range' ..)⟩
  · intro s ts units hts
    rw [expandTargets, List.foldr_cons, hts]
    rfl
  · intro us
    exact ⟨removeDuplicates_nodup us, removeDuplicates_sublist us,
      fun u => mem_removeDuplicates us u⟩

/-- C4 counterexample: for the valid CIDR `0.0.0.0/0` the expansion loop
never terminates (the byte-wise increment wraps `255.255.255.255` back
into the block), so it does not emit `2^32` addresses. -/
theorem expandTargets_slash0_cex :
    ¬ ∃ l, expandCIDR 0 0 = some l ∧ l.length = 2 ^ (32 - 0) := by
  rintro ⟨l, hl, -⟩
  rw [expandCIDR] at hl
  rw [show netBase 0 0 = 0 from by rw [netBase, Nat.zero_div, Nat.zero_mul]] at hl
  rw [expandLoop_slash0_none _ 0 (by norm_num)] at hl
  cases hl

/-- Witness for C4: the `/32` block at address 5 expands to exactly its
single address. -/
theorem expandTargets_witness :
    ∃ l, expandCIDR 5 32 = some l
      ∧ l.length = 2 ^ (32 - 32)
      ∧ l.Pairwise (· < ·)
      ∧ l.Nodup
      ∧ removeDuplicates l = l :=
  expandTargets_spec.1 5 32 (by decide) (by decide) (by norm_num)

/-! ## Claim C1: well-formedness of the result store across operations -/

theorem hostNames_updateHostPorts (recs : List HostInfo) (host : String)
    (ps : List PortInfo) :
    hostNames (updateHostPorts recs host ps) = hostNames recs := by
  induction recs with
  | nil => rfl
  | cons a recs ih =>
    by_cases ha : a.Host = host
    · rw [updateHostPorts, if_pos ha]
      rfl
    · rw [updateHostPorts, if_neg ha]
      simp only [hostNames, List.map_cons] at ih ⊢
      rw [ih]

theorem mem_updateHostPorts (recs : List HostInfo) (host : String)
    (ps : List PortInfo) (rec : HostInfo)
    (h : rec ∈ updateHostPorts recs host ps) : rec ∈ recs ∨ rec.Ports = ps := by
  induction recs with
  | nil => simp [updateHostPorts] at h
  | cons a recs ih =>
    by_cases ha : a.Host = host
    · rw [updateHostPorts, if_pos ha] at h
      rcases List.mem_cons.mp h with rfl | h
      · exact Or.inr rfl
      · exact Or.inl (List.mem_cons_of_mem _ h)
    · rw [updateHostPorts, if_neg ha] at h
      rcases List.mem_cons.mp h with rfl | h
      · exact Or.inl (List.mem_cons_self _ _)
      · rcases ih h with h | h
        · exact Or.inl (List.mem_cons_of_mem _ h)
        · exact Or.inr h

theorem commonPorts_nodup : commonPorts.Nodup := by decide

theorem map_port_mk (l : List Int) :
    (l.map (fun p => ({ Port := p, State := "open", Service := "" } : PortInfo))).map
      (·.Port) = l := by
  induction l with
  | nil => rfl
  | cons p ps ih =>
    simp only [List.map_cons, ih]

theorem openPortsFor_nums (conn : String → Int → Bool) (host : String)
    (ports : List Int) :
    (openPortsFor conn host ports).map (·.Port) = ports.filter (conn host) := by
  rw [openPortsFor, map_port_mk]

theorem wfRecs_updateHostPorts (recs : List HostInfo) (host : String)
    (ps : List PortInfo) (hwf : wfRecs recs) (hps : (ps.map (·.Port)).Nodup) :
    wfRecs (updateHostPorts recs host ps) := by
  refine ⟨by rw [hostNames_updateHostPorts]; exact hwf.1, ?_⟩
  intro rec hrec
  rcases mem_updateHostPorts recs host ps rec hrec with h | h
  · exact hwf.2 rec h
  · rw [h]
    exact hps

theorem wfRecs_portScanStore (recs : List HostInfo) (conn : String → Int → Bool)
    (hosts : List String) (hwf : wfRecs recs) :
    wfRecs (portScanStore recs conn hosts) := by
  induction hosts generalizing recs with
  | nil => exact hwf
  | cons h hs ih =>
    rw [portScanStore, List.foldl_cons]
    exact ih _ (wfRecs_updateHostPorts _ _ _ hwf
      (by rw [openPortsFor_nums]; exact commonPorts_nodup.filter _))

theorem hostNames_appendPortsFirst (recs : List HostInfo) (host : String)
    (ps : List PortInfo) :
    hostNames (appendPortsFirst recs host ps) = hostNames recs := by
  induction recs with
  | nil => rfl
  | cons a recs ih =>
    by_cases ha : a.Host = host
    · rw [appendPortsFirst, if_pos ha]
      rfl
    · rw [appendPortsFirst, if_neg ha]
      simp only [hostNames, List.map_cons] at ih ⊢
      rw [ih]

theorem mem_appendPortsFirst (recs : List HostInfo) (host : String)
    (ps : List PortInfo) (rec : HostInfo)
    (h : rec ∈ appendPortsFirst recs host ps) :
    rec ∈ recs
    ∨ ∃ r0, recs.find? (fun x => x.Host == host) = some r0
        ∧ rec = { r0 with Ports := r0.Ports ++ ps } := by
  induction recs with
  | nil => simp [appendPortsFirst] at h
  | cons a recs ih =>
    by_cases ha : a.Host = host
    · rw [appendPortsFirst, if_pos ha] at h
      rcases List.mem_cons.mp h with rfl | h
      · exact Or.inr ⟨a, List.find?_cons_of_pos _ (by simp [ha]), rfl⟩
      · exact Or.inl (List.mem_cons_of_mem _ h)
    · rw [appendPortsFirst, if_neg ha] at h
      rcases List.mem_cons.mp h with rfl | h
      · exact Or.inl (List.mem_cons_self _ _)
      · rcases ih h with h | ⟨r0, hf, he⟩
        · exact Or.inl (List.mem_cons_of_mem _ h)
        · exact Or.inr ⟨r0, by rw [List.find?_cons_of_neg _ (by simp [ha])]; exact hf, he⟩

theorem find?_appendPortsFirst_ne (recs : List HostInfo) (host h : String)
    (ps : List PortInfo) (hne : h ≠ host) :
    (appendPortsFirst recs host ps).find? (fun x => x.Host == h)
      = recs.find? (fun x => x.Host == h) := by
  induction recs with
  | nil => rfl
  | cons a recs ih =>
    by_cases ha : a.Host = host
    · have hfa : (a.Host == h) = false := by
        rw [ha, beq_eq_false_iff_ne]
        exact Ne.symm hne
      rw [appendPortsFirst, if_pos ha,
        List.find?_cons_of_neg _ (by simp [hfa]),
        List.find?_cons_of_neg _ (by simp [hfa])]
    · by_cases hah : (a.Host == h) = true
      · rw [appendPortsFirst, if_neg ha, List.find?_cons_of_pos _ (by exact hah),
          List.find?_cons_of_pos _ (by exact hah)]
      · rw [appendPortsFirst, if_neg ha,
          List.find?_cons_of_neg _ (by exact hah), List.find?_cons_of_neg _ (by exact hah),
          ih]

theorem any_host_eq_mem (recs : List HostInfo) (host : String) :
    recs.any (fun x => x.Host == host) = true ↔ host ∈ hostNames recs := by
  rw [List.any_eq_true, hostNames]
  constructor
  · rintro ⟨x, hx, he⟩
    exact List.mem_map.mpr ⟨x, hx, by simpa using he⟩
  · intro h
    obtain ⟨x, hx, he⟩ := List.mem_map.mp h
    exact ⟨x, hx, by simpa using he⟩

/-- Port numbers the masscan result map holds for `h`. -/
def portNumsOf (mm : List (String × List PortInfo)) (h : String) : List Int :=
  (portsAt mm h).map (·.Port)

theorem currentPortNums_ensure (recs : List HostInfo) (host : String) (h : String) :
    currentPortNums (recs ++ [{ Host := host, Status := "up", Ports := [] }]) h
      = currentPortNums recs h := by
  rw [currentPortNums, currentPortNums, List.find?_append]
  cases hf : recs.find? (fun x => x.Host == h) with
  | some r => rfl
  | none =>
    have hsing : ([{ Host := host, Status := "up", Ports := [] }] : List HostInfo).find?
        (fun x => x.Host == h)
        = if host = h then some { Host := host, Status := "up", Ports := [] }
          else none := by
      by_cases hh : host = h
      · rw [List.find?_cons_of_pos _ (by simp [hh]), if_pos hh]
      · rw [List.find?_cons_of_neg _ (by simp [hh]), if_neg hh]
        rfl
    rw [hsing]
    by_cases hh : host = h
    · rw [if_pos hh]
      rfl
    · rw [if_neg hh]
      rfl

theorem currentPortNums_appendPortsFirst_ne (recs : List HostInfo)
    (host h : String) (ps : List PortInfo) (hne : h ≠ host) :
    currentPortNums (appendPortsFirst recs host ps) h = currentPortNums recs h := by
  rw [currentPortNums, currentPortNums, find?_appendPortsFirst_ne recs host h ps hne]

theorem currentPortNums_mergeOne_ne (recs : List HostInfo)
    (mm : List (String × List PortInfo)) (host h : String) (hne : h ≠ host) :
    currentPortNums (mergeOne recs mm host) h = currentPortNums recs h := by
  rw [mergeOne]
  cases hl : lookupEntry mm host with
  | some ps =>
    simp only
    by_cases hany : recs.any (fun x => x.Host == host) = true
    · rw [if_pos hany, currentPortNums_appendPortsFirst_ne _ _ _ _ hne]
    · rw [if_neg hany, currentPortNums_appendPortsFirst_ne _ _ _ _ hne,
        currentPortNums_ensure]
  | none =>
    simp only
    by_cases hany : recs.any (fun x => x.Host == host) = true
    · rw [if_pos hany]
    · rw [if_neg hany, currentPortNums_ensure]

theorem wfRecs_ensure (recs : List HostInfo) (host : String) (hwf : wfRecs recs)
    (hany : recs.any (fun x => x.Host == host) = false) :
    wfRecs (recs ++ [{ Host := host, Status := "up", Ports := [] }]) := by
  constructor
  · rw [hostNames, List.map_append]
    refine List.Nodup.append hwf.1 (by simp) ?_
    intro a ha hb
    have hb' : a = host := by simpa using hb
    rw [hb'] at ha
    rw [(any_host_eq_mem recs host).mpr ha] at hany
    cases hany
  · intro rec hrec
    rcases List.mem_append.mp hrec with h | h
    · exact hwf.2 rec h
    · simp only [List.mem_singleton] at h
      rw [h]
      simp

theorem currentPortNums_find? (recs : List HostInfo) (h : String) (r0 : HostInfo)
    (hf : recs.find? (fun x => x.Host == h) = some r0) :
    currentPortNums recs h = r0.Ports.map (·.Port) := by
  rw [currentPortNums, hf]
  rfl

theorem wfRecs_mergeOne (recs : List HostInfo)
    (mm : List (String × List PortInfo)) (host : String) (hwf : wfRecs recs)
    (hnodup : (portNumsOf mm host).Nodup)
    (hdisj : ∀ q ∈ portNumsOf mm host, q ∉ currentPortNums recs host) :
    wfRecs (mergeOne recs mm host) := by
  rw [mergeOne]
  have hwf' : wfRecs (if recs.any (fun x => x.Host == host) = true then recs
      else recs ++ [{ Host := host, Status := "up", Ports := [] }]) := by
    by_cases hany : recs.any (fun x => x.Host == host) = true
    · rw [if_pos hany]
      exact hwf
    · rw [if_neg hany]
      exact wfRecs_ensure recs host hwf (Bool.eq_false_iff.mpr hany)
  have hcur : currentPortNums
      (if recs.any (fun x => x.Host == host) = true then recs
       else recs ++ [{ Host := host, Status := "up", Ports := [] }]) host
      = currentPortNums recs host := by
    by_cases hany : recs.any (fun x => x.Host == host) = true
    · rw [if_pos hany]
    · rw [if_neg hany, currentPortNums_ensure]
  cases hl : lookupEntry mm host with
  | none => exact hwf'
  | some ps =>
    simp only
    have hpn : portNumsOf mm host = ps.map (·.Port) := by
      rw [portNumsOf, portsAt, hl]
      rfl
    constructor
    · rw [hostNames_appendPortsFirst]
      exact hwf'.1
    · intro rec hrec
      rcases mem_appendPortsFirst _ _ _ _ hrec with h | ⟨r0, hf, he⟩
      · exact hwf'.2 rec h
      · rw [he]
        simp only [List.map_append]
        refine List.Nodup.append (hwf'.2 r0 (List.mem_of_find?_eq_some hf)) ?_ ?_
        · rw [← hpn]
          exact hnodup
        · intro q hq hq2
          have hq2' : q ∈ portNumsOf mm host := by
            rw [hpn]
            exact hq2
          have := hdisj q hq2'
          rw [← hcur, currentPortNums_find? _ _ _ hf] at this
          exact this hq

theorem wfRecs_masscanMergeHosts (hosts : List String) (recs : List HostInfo)
    (mm : List (String × List PortInfo)) (hwf : wfRecs recs) (hnd : hosts.Nodup)
    (hok : ∀ h ∈ hosts, (portNumsOf mm h).Nodup
      ∧ ∀ q ∈ portNumsOf mm h, q ∉ currentPortNums recs h) :
    wfRecs (masscanMergeHosts recs hosts mm) := by
  induction hosts generalizing recs with
  | nil => exact hwf
  | cons h hs ih =>
    rw [masscanMergeHosts, List.foldl_cons]
    have hh := hok h (List.mem_cons_self _ _)
    have hnd' := List.nodup_cons.mp hnd
    refine ih (mergeOne recs mm h)
      (wfRecs_mergeOne recs mm h hwf hh.1 hh.2) hnd'.2 ?_
    intro h' hh'
    have hne : h' ≠ h := fun he => hnd'.1 (he ▸ hh')
    rw [currentPortNums_mergeOne_ne recs mm h h' hne]
    exact hok h' (List.mem_cons_of_mem _ hh')

theorem map_host_mk (st : String) (l : List String) :
    (l.map (fun h => ({ Host := h, Status := st, Ports := [] } : HostInfo))).map
      (·.Host) = l := by
  induction l with
  | nil => rfl
  | cons h hs ih =>
    simp only [List.map_cons, ih]

theorem wfRecs_appendBatch (recs : List HostInfo) (batch : List String)
    (st : String) (hwf : wfRecs recs) (hnd : batch.Nodup)
    (hdisj : ∀ b ∈ batch, b ∉ hostNames recs) :
    wfRecs (recs ++ batch.map (fun h => { Host := h, Status := st, Ports := [] })) := by
  constructor
  · rw [hostNames, List.map_append]
    rw [show List.map (·.Host)
        (batch.map (fun h => ({ Host := h, Status := st, Ports := [] } : HostInfo)))
        = batch from map_host_mk st batch]
    exact List.Nodup.append hwf.1 hnd (fun a ha hb => hdisj a hb ha)
  · intro rec hrec
    rcases List.mem_append.mp hrec with h | h
    · exact hwf.2 rec h
    · obtain ⟨b, _, rfl⟩ := List.mem_map.mp h
      simp

/-- The per-operation side condition under which well-formedness is
preserved: batches appended by the discovery operations are fresh (no
host they add is already recorded), and a masscan merge visits each host
once with duplicate-free port findings disjoint from the ports already
recorded for that host. -/
def opOK (r : ScanResults) : StoreOp → Prop
  | StoreOp.hostDisc raw ping conn =>
    ∀ h ∈ liveHostsList (removeDuplicates raw) ping conn, h ∉ hostNames r.Hosts
  | StoreOp.passive raw => ∀ h ∈ removeDuplicates raw, h ∉ hostNames r.Hosts
  | StoreOp.masscanMerge hosts mm =>
    hosts.Nodup ∧ ∀ h ∈ hosts, (portNumsOf mm h).Nodup
      ∧ ∀ q ∈ portNumsOf mm h, q ∉ currentPortNums r.Hosts h
  | StoreOp.portScan _ _ => True

/-- Predicate `opOK` holding at every step of a sequence, each condition taken at
the store state the operation actually sees. -/
def seqOK : ScanResults → List StoreOp → Prop
  | _, [] => True
  | r, op :: ops => opOK r op ∧ seqOK (applyOp r op) ops

theorem applyOp_wf (r : ScanResults) (op : StoreOp) (hwf : wfStore r)
    (hok : opOK r op) : wfStore (applyOp r op) := by
  cases op with
  | hostDisc raw ping conn =>
    exact wfRecs_appendBatch r.Hosts _ "up" hwf
      ((removeDuplicates_nodup raw).filter _) hok
  | passive raw =>
    exact wfRecs_appendBatch r.Hosts _ "discovered" hwf
      (removeDuplicates_nodup raw) hok
  | masscanMerge hosts mm =>
    exact wfRecs_masscanMergeHosts hosts r.Hosts mm hwf hok.1 hok.2
  | portScan hosts conn =>
    exact wfRecs_portScanStore r.Hosts conn hosts hwf

/-- C1 (amended): the store's well-formedness — each host identifier at
most once, each port number at most once per host — is preserved by every
sequence of the store-mutating operations in which each discovery batch
(HostDiscovery, PassiveDiscovery) adds only hosts not already recorded,
and each MasscanScan merge visits each scanned host once with
duplicate-free port findings disjoint from that host's existing records.
(Unconditionally, `MasscanScan`'s merge and `PortScan` preserve host
uniqueness, but the discovery operations append their batches blindly —
see the counterexample — and the merge appends ports without dedup, so
the invariant does not hold for arbitrary sequences as claimed.) -/
theorem scanState_wf_preserved (r : ScanResults) (ops : List StoreOp)
    (hwf : wfStore r) (hok : seqOK r ops) : wfStore (applySeq r ops) := by
  induction ops generalizing r with
  | nil => exact hwf
  | cons op ops ih =>
    rw [applySeq, List.foldl_cons]
    exact ih (applyOp r op) (applyOp_wf r op hwf hok.1) hok.2

/-- Operation sequence falsifying C1 as stated: passive discovery records
host `a`, then host discovery finds the same `a` live and appends it
again. -/
def c1CexOps : List StoreOp :=
  [StoreOp.passive ["a"],
   StoreOp.hostDisc ["a"] (fun _ => true) (fun _ _ => false)]

/-- C1 counterexample: after PassiveDiscovery records host `a` and
HostDiscovery then finds `a` live, the store holds two records named `a`
— host-identifier uniqueness is not preserved by every operation
sequence. -/
theorem scanState_wf_cex :
    ¬ wfStore (applySeq { Hosts := [], UnresponsiveHosts := 0 } c1CexOps) := by
  intro h
  have h1 := h.1
  revert h1
  decide

/-- Operation sequence for the C1 witness: all batches fresh, merge
disjoint. -/
def c1WitnessOps : List StoreOp :=
  [StoreOp.passive ["p.example"],
   StoreOp.hostDisc ["10.0.0.1"] (fun _ => true) (fun _ _ => false),
   StoreOp.masscanMerge ["10.0.0.1"]
     [("10.0.0.1", [{ Port := 80, State := "open", Service := "" }])],
   StoreOp.portScan ["p.example"] (fun _ _ => false)]

/-- Witness for C1: a run through all four operations under the amended
side conditions keeps the store well formed. -/
theorem scanState_wf_witness :
    wfStore (applySeq { Hosts := [], UnresponsiveHosts := 0 } c1WitnessOps) :=
  scanState_wf_preserved { Hosts := [], UnresponsiveHosts := 0 } c1WitnessOps
    ⟨by decide, by decide⟩
    (by
      simp only [c1WitnessOps, seqOK, opOK]
      exact ⟨by decide, by decide, by decide, trivial, trivial⟩)

end PDive2
